import Mathlib

/-!
# Verification of the `highs` Go package (lanl/highs)

A shallow embedding, in Lean 4, of the model-construction and
result-marshalling layer of the `highs` Go package: the coordinate-matrix
canonicalizer (`filterNonzeros`), the CSR encoder (`nonzerosToCSR`), the
dimension inferencer (`(*Model).replaceNilSlices`), the objective
recomputation performed by the LP/MIP/QP `Solve` methods, and the
status/dual/basis handling of `(*RawModel).Solve`.

Modelling conventions:
* Go `int` is modelled as `Int` (machine overflow is irrelevant at the sizes
  involved and the code performs no wrapping arithmetic).
* Go `float64` values that participate in arithmetic (costs, primal values,
  matrix coefficients, the objective) are modelled as `ℚ`; the operations the
  code performs on them (`+`, `*`, `/2`, `*2`) are exact in `ℚ`.  Bound
  vectors, whose values never participate in any computation other than being
  stored, are modelled by `GoF`, which can also represent the infinities the
  code uses as defaults.
* A Go `nil` slice is `none`; a non-nil slice of length `n` is `some l`.
* Go functions that can panic on out-of-range indexing return `Option`.
* The HiGHS backend is opaque; a solve models it as a `RawBackend` record of
  the statuses and arrays the backend would hand back.
-/

namespace LanlHighs

/-- A `Nonzero` represents a nonzero entry in a sparse matrix (src
`types.go` / `model.go`): row, column (Go `int`) and value (Go `float64`). -/
structure Nonzero where
  Row : Int
  Col : Int
  Val : ℚ
deriving DecidableEq, Repr

/-- The total preorder on matrix entries induced by the comparison closure
passed to `sort.SliceStable` in `filterNonzeros`: the Go closure is the
strict lexicographic order on `(Row, Col)`, and a stable sort with respect
to a strict order `less` orders the list by the total preorder
`¬ less b a`, which for this `less` is lexicographic `(Row, Col)` `≤`. -/
def keyLe (a b : Nonzero) : Prop :=
  a.Row < b.Row ∨ (a.Row = b.Row ∧ a.Col ≤ b.Col)

/-- Strict lexicographic order on the `(Row, Col)` key of an entry. -/
def keyLt (a b : Nonzero) : Prop :=
  a.Row < b.Row ∨ (a.Row = b.Row ∧ a.Col < b.Col)

instance : DecidableRel keyLe := fun a b =>
  inferInstanceAs (Decidable (a.Row < b.Row ∨ (a.Row = b.Row ∧ a.Col ≤ b.Col)))

instance : DecidableRel keyLt := fun a b =>
  inferInstanceAs (Decidable (a.Row < b.Row ∨ (a.Row = b.Row ∧ a.Col < b.Col)))

instance : IsTotal Nonzero keyLe where
  total a b := by
    unfold keyLe
    rcases lt_trichotomy a.Row b.Row with h | h | h
    · exact Or.inl (Or.inl h)
    · rcases le_total a.Col b.Col with h2 | h2
      · exact Or.inl (Or.inr ⟨h, h2⟩)
      · exact Or.inr (Or.inr ⟨h.symm, h2⟩)
    · exact Or.inr (Or.inl h)

instance : IsTrans Nonzero keyLe where
  trans a b c hab hbc := by
    unfold keyLe at *
    rcases hab with h | ⟨h1, h2⟩ <;> rcases hbc with h' | ⟨h1', h2'⟩
    · exact Or.inl (h.trans h')
    · exact Or.inl (h1' ▸ h)
    · exact Or.inl (h1 ▸ h')
    · exact Or.inr ⟨h1.trans h1', h2.trans h2'⟩

instance : IsTrans Nonzero keyLt where
  trans a b c hab hbc := by
    unfold keyLt at *
    rcases hab with h | ⟨h1, h2⟩ <;> rcases hbc with h' | ⟨h1', h2'⟩
    · exact Or.inl (h.trans h')
    · exact Or.inl (h1' ▸ h)
    · exact Or.inl (h1 ▸ h')
    · exact Or.inr ⟨h1.trans h1', h2.trans h2'⟩

/-- Errors raised by the canonicalizer (`filterNonzeros` formats these as Go
error strings; we keep them structured, carrying the offending coordinate). -/
inductive NzError where
  /-- "(r, c) is not a valid coordinate for a matrix coefficient" -/
  | invalidCoord (r c : Int)
  /-- "(r, c) is not a valid upper-triangular coordinate for a matrix
  coefficient" -/
  | notUpperTriangular (r c : Int)
deriving DecidableEq, Repr

instance {ε α : Type} [DecidableEq ε] [DecidableEq α] : DecidableEq (Except ε α)
  | .error e, .error f =>
    if h : e = f then .isTrue (by rw [h])
    else .isFalse (by intro hc; injection hc; contradiction)
  | .error _, .ok _ => .isFalse (by intro hc; cases hc)
  | .ok _, .error _ => .isFalse (by intro hc; cases hc)
  | .ok a, .ok b =>
    if h : a = b then .isTrue (by rw [h])
    else .isFalse (by intro hc; injection hc; contradiction)

/-- The stable sort performed by `sort.SliceStable` inside `filterNonzeros`
(src `unnamed/part_005:95-110`): stable sorting by the strict lexicographic
`(Row, Col)` order is insertion sort by the induced total preorder `keyLe`. -/
def sortNz (nz : List Nonzero) : List Nonzero :=
  List.insertionSort keyLe nz

/-- The duplicate-elision loop of `filterNonzeros`
(src `unnamed/part_005:112-127`), phrased with the last element of the `noDups`
accumulator (`prev`) as explicit state: a duplicate coordinate overwrites
`prev`'s value in place (`noDups[i-1].Val = v.Val`); a new coordinate emits
`prev` and continues with the new entry. -/
def elideRun (prev : Nonzero) : List Nonzero → List Nonzero
  | [] => [prev]
  | v :: rest =>
    if v.Row = prev.Row ∧ v.Col = prev.Col then
      elideRun { prev with Val := v.Val } rest
    else
      prev :: elideRun v rest

/-- Duplicate elision over a whole (sorted) list: the Go loop starts with an
empty `noDups` and always appends the first element. -/
def elideDups : List Nonzero → List Nonzero
  | [] => []
  | v :: rest => elideRun v rest

/-- `filterNonzeros` (src `unnamed/part_005:71-129`): reject negative
coordinates, optionally reject lower-triangular coordinates, stably sort by
`(Row, Col)`, and elide duplicates keeping the latest value.  The `error`
carries the first offending coordinate, as the Go loop reports it.  The
one-argument variant in `unnamed/part_002:130-177` is this function with
`tri := false`. -/
def filterNonzeros (nz : List Nonzero) (tri : Bool) : Except NzError (List Nonzero) :=
  match nz.find? (fun v => v.Row < 0 || v.Col < 0) with
  | some v => .error (.invalidCoord v.Row v.Col)
  | none =>
    if tri then
      match nz.find? (fun v => v.Col < v.Row) with
      | some v => .error (.notUpperTriangular v.Row v.Col)
      | none => .ok (elideDups (sortNz nz))
    else
      .ok (elideDups (sortNz nz))

/-- The CSR-construction loop of `nonzerosToCSR`
(src `unnamed/part_005:144-153`), with the mutable loop state made explicit:
`prevRow` is the last row for which a `start` entry was emitted and `n` is
`len(value)` at the current iteration (the lists are produced front-first
instead of appended to, which yields the same lists). -/
def csrGo (prevRow : Int) (n : Nat) : List Nonzero → List Int × List Int × List ℚ
  | [] => ([], [], [])
  | v :: rest =>
    if v.Row > prevRow then
      let t := csrGo v.Row (n + 1) rest
      ((n : Int) :: t.1, v.Col :: t.2.1, v.Val :: t.2.2)
    else
      let t := csrGo prevRow (n + 1) rest
      (t.1, v.Col :: t.2.1, v.Val :: t.2.2)

/-- The CSR triple `(start, index, value)` built from an (already canonical)
list of nonzeros; `prevRow` starts at `-1` and `value` starts empty. -/
def csrOf (nz : List Nonzero) : List Int × List Int × List ℚ :=
  csrGo (-1) 0 nz

/-- `nonzerosToCSR` (src `unnamed/part_005:133-155`): canonicalize, then
encode as a compressed sparse row triple.  `(*commonModel).makeSparseMatrix`
(src `model.go:250-267`) is the same loop run on an already-canonical list. -/
def nonzerosToCSR (nz : List Nonzero) (tri : Bool) :
    Except NzError (List Int × List Int × List ℚ) :=
  match filterNonzeros nz tri with
  | .error e => .error e
  | .ok nonzeros => .ok (csrOf nonzeros)

/-- A Go `float64` used only as stored data (bound vectors): either a finite
value or one of the infinities `math.Inf(±1)` the code uses as defaults. -/
inductive GoF where
  | fin (q : ℚ)
  | pinf
  | ninf
deriving DecidableEq, Repr

/-- The `Model` struct shared by the high-level LP/MIP/QP paths
(src `unnamed/part_002:117-126`).  `none` is a Go `nil` slice. -/
structure GoModel where
  Maximize : Bool := false
  ColCosts : Option (List ℚ) := none
  Offset : ℚ := 0
  ColLower : Option (List GoF) := none
  ColUpper : Option (List GoF) := none
  RowLower : Option (List GoF) := none
  RowUpper : Option (List GoF) := none
  CoeffMatrix : List Nonzero := []
deriving DecidableEq, Repr

/-- `len` of a possibly-`nil` Go slice. -/
def optLen {α : Type} : Option (List α) → Nat
  | none => 0
  | some l => l.length

/-- The first loop of `replaceNilSlices` (src `unnamed/part_002:212-220`):
starting from `nr, nc := 0, 0`, each matrix entry with `Row >= nr` bumps
`nr` to `Row+1`, and likewise for columns.  Returns `(nr, nc)`. -/
def inferDims (cm : List Nonzero) : Int × Int :=
  cm.foldl
    (fun nrc nz =>
      (if nz.Row ≥ nrc.1 then nz.Row + 1 else nrc.1,
       if nz.Col ≥ nrc.2 then nz.Col + 1 else nrc.2))
    (0, 0)

/-- `(*Model).replaceNilSlices` (src `unnamed/part_002:210-282`): infer
`(nr, nc)` from the coefficient matrix and the slice lengths, replace `nil`
slices by default-valued slices (costs → 0, lower bounds → −∞, upper
bounds → +∞), then fail (`none`) if `ColLower`, `ColUpper`, `RowLower` or
`RowUpper` has the wrong length.  Note the Go `switch` checks
`len(mc.ColLower) != nc` twice and never checks `len(mc.ColCosts)`; the
embedding reproduces this.  Success returns `(nr, nc, modified copy)`. -/
def replaceNilSlices (m : GoModel) : Option (Int × Int × GoModel) :=
  let nr0 := (inferDims m.CoeffMatrix).1
  let nc0 := (inferDims m.CoeffMatrix).2
  let nc1 := if (optLen m.ColCosts : Int) > nc0 then (optLen m.ColCosts : Int) else nc0
  let nc2 := if (optLen m.ColLower : Int) > nc1 then (optLen m.ColLower : Int) else nc1
  let nc := if (optLen m.ColUpper : Int) > nc2 then (optLen m.ColUpper : Int) else nc2
  let nr1 := if (optLen m.RowLower : Int) > nr0 then (optLen m.RowLower : Int) else nr0
  let nr := if (optLen m.RowUpper : Int) > nr1 then (optLen m.RowUpper : Int) else nr1
  let mc : GoModel :=
    { m with
      ColCosts := some (m.ColCosts.getD (List.replicate nc.toNat 0)),
      ColLower := some (m.ColLower.getD (List.replicate nc.toNat GoF.ninf)),
      ColUpper := some (m.ColUpper.getD (List.replicate nc.toNat GoF.pinf)),
      RowLower := some (m.RowLower.getD (List.replicate nr.toNat GoF.ninf)),
      RowUpper := some (m.RowUpper.getD (List.replicate nr.toNat GoF.pinf)) }
  if (optLen mc.ColLower : Int) ≠ nc then none
  else if (optLen mc.ColLower : Int) ≠ nc ∨ (optLen mc.ColUpper : Int) ≠ nc then none
  else if (optLen mc.RowLower : Int) ≠ nr ∨ (optLen mc.RowUpper : Int) ≠ nr then none
  else some (nr, nc, mc)

/-- Errors the high-level `Solve` methods can return before reaching the
backend. -/
inductive SolveError where
  /-- "model has inconsistent dimensions" -/
  | inconsistentDims
  /-- an error propagated from the canonicalizer -/
  | matrix (e : NzError)
deriving DecidableEq, Repr

/-- The data an LP/MIP solve hands to the backend call. -/
structure PreparedLP where
  nr : Int
  nc : Int
  cm : GoModel
  acsr : List Int × List Int × List ℚ
deriving DecidableEq, Repr

/-- The part of `(*LPModel).Solve` (src `unnamed/part_006:92-105`) that runs
before the backend call `Highs_lpCall`: dimension inference/defaulting, then
conversion of the coefficient matrix to CSR.  `(*MIPModel).Solve`
(src `unnamed/part_000:49-62`) performs the same two steps. -/
def lpSolvePrepare (m : GoModel) : Except SolveError PreparedLP :=
  match replaceNilSlices m with
  | none => .error .inconsistentDims
  | some (nr, nc, cm) =>
    match nonzerosToCSR m.CoeffMatrix false with
    | .error e => .error (.matrix e)
    | .ok csr => .ok { nr := nr, nc := nc, cm := cm, acsr := csr }

/-- The `QPModel` struct (src `qp-model.go:12-15`): a `Model` plus an
upper-triangular Hessian in coordinate form. -/
structure QPGoModel extends GoModel where
  HessianMatrix : List Nonzero := []
deriving DecidableEq, Repr

/-- The data a QP solve hands to the backend call. -/
structure PreparedQP where
  nr : Int
  nc : Int
  cm : GoModel
  acsr : List Int × List Int × List ℚ
  hessian : List Nonzero
  qcsr : List Int × List Int × List ℚ
deriving DecidableEq, Repr

/-- The part of `(*QPModel).Solve` (src `qp-model.go:31-54`) that runs before
the backend call `Highs_qpCall`: dimension inference/defaulting, CSR
conversion of the coefficient matrix, upper-triangular canonicalization of
the Hessian, and CSR conversion of the canonical Hessian. -/
def qpSolvePrepare (m : QPGoModel) : Except SolveError PreparedQP :=
  match replaceNilSlices m.toGoModel with
  | none => .error .inconsistentDims
  | some (nr, nc, cm) =>
    match nonzerosToCSR m.CoeffMatrix false with
    | .error e => .error (.matrix e)
    | .ok acsr =>
      match filterNonzeros m.HessianMatrix true with
      | .error e => .error (.matrix e)
      | .ok hessian =>
        match nonzerosToCSR hessian true with
        | .error e => .error (.matrix e)
        | .ok qcsr =>
          .ok { nr := nr, nc := nc, cm := cm, acsr := acsr, hessian := hessian, qcsr := qcsr }

/-- The objective-recomputation loop shared by `(*LPModel).Solve`
(src `unnamed/part_006:162-167`), `(*MIPModel).Solve`
(src `unnamed/part_000:108-112`) and the linear part of `(*QPModel).Solve`
(src `qp-model.go:114-119`): starting from the model's `Offset`, add
`primal[i] * costs[i]` for each index of the primal vector.  The loop ranges
over `ColumnPrimal` and indexes `ColCosts`, so a cost vector shorter than the
primal vector panics in Go (`none` here). -/
def recomputeLinear (obj : ℚ) : List ℚ → List ℚ → Option ℚ
  | [], _ => some obj
  | _ :: _, [] => none
  | p :: ps, c :: cs => recomputeLinear (obj + p * c) ps cs

/-- The quadratic-term loop of `(*QPModel).Solve` (src `qp-model.go:120-128`):
for each canonical Hessian entry `(r, c, h)`, add
`primal[r] * primal[c] * h / 2`, doubled when `r ≠ c`.  The Go code indexes
`ColumnPrimal` at `r` and `c`, so an out-of-range index panics (`none`). -/
def recomputeQuadratic (obj : ℚ) (primal : List ℚ) : List Nonzero → Option ℚ
  | [] => some obj
  | nz :: rest =>
    match (if 0 ≤ nz.Row then primal.get? nz.Row.toNat else none),
        (if 0 ≤ nz.Col then primal.get? nz.Col.toNat else none) with
    | some pr, some pc =>
      let v := pr * pc * nz.Val / 2
      let v := if nz.Row ≠ nz.Col then v * 2 else v
      recomputeQuadratic (obj + v) primal rest
    | _, _ => none

/-- The full objective computed by `(*QPModel).Solve`
(src `qp-model.go:114-128`): offset, plus linear terms, plus quadratic
terms. -/
def qpObjective (offset : ℚ) (primal costs : List ℚ) (hessian : List Nonzero) :
    Option ℚ :=
  match recomputeLinear offset primal costs with
  | none => none
  | some lin => recomputeQuadratic lin primal hessian

/-! ## Backend status constants

Values of the HiGHS C API constants declared `extern` in `highs-externs.h`;
the Go code only ever compares against them. -/

/-- `kHighsStatusError` -/
def kHighsStatusError : Int := -1

/-- `kHighsStatusOk` -/
def kHighsStatusOk : Int := 0

/-- `kHighsStatusWarning` -/
def kHighsStatusWarning : Int := 1

/-- `kHighsSolutionStatusNone` -/
def kHighsSolutionStatusNone : Int := 0

/-- `kHighsSolutionStatusInfeasible` -/
def kHighsSolutionStatusInfeasible : Int := 1

/-- `kHighsSolutionStatusFeasible` -/
def kHighsSolutionStatusFeasible : Int := 2

/-- `kHighsBasisValidityInvalid` -/
def kHighsBasisValidityInvalid : Int := 0

/-- `kHighsBasisValidityValid` -/
def kHighsBasisValidityValid : Int := 1

/-- A `CallStatus` (src `unnamed/part_005:17-21`) wraps a non-`Ok`
`kHighsStatus` returned by a HiGHS call, with the C function name and the Go
caller name. -/
structure CallStatus where
  Status : Int
  CName : String
  GoName : String
deriving DecidableEq, Repr

/-- `CallStatus.IsWarning` (src `unnamed/part_005:36-38`). -/
def CallStatus.IsWarning (e : CallStatus) : Bool :=
  e.Status == kHighsStatusWarning

/-- `newCallStatus` (src `unnamed/part_005:42-51`): `nil` (`none`) for
`kHighsStatusOk`, otherwise a `CallStatus` error value. -/
def newCallStatus (st : Int) (hName gName : String) : Option CallStatus :=
  if st = kHighsStatusOk then none
  else some { Status := st, CName := hName, GoName := gName }

/-- `BasisStatus` (src `model.go:24-34`). -/
inductive BasisStatus where
  | UnknownBasisStatus
  | Lower
  | Basic
  | Upper
  | Zero
  | NonBasic
deriving DecidableEq, Repr

/-- `kHighsBasisStatusLower` -/
def kHighsBasisStatusLower : Int := 0

/-- `kHighsBasisStatusBasic` -/
def kHighsBasisStatusBasic : Int := 1

/-- `kHighsBasisStatusUpper` -/
def kHighsBasisStatusUpper : Int := 2

/-- `kHighsBasisStatusZero` -/
def kHighsBasisStatusZero : Int := 3

/-- `kHighsBasisStatusNonbasic` -/
def kHighsBasisStatusNonbasic : Int := 4

/-- `convertHighsBasisStatus` (src `model.go:37-52`): map a raw code through
the fixed enumeration, with unknown codes becoming `UnknownBasisStatus`. -/
def convertHighsBasisStatus (hbs : Int) : BasisStatus :=
  if hbs = kHighsBasisStatusLower then .Lower
  else if hbs = kHighsBasisStatusBasic then .Basic
  else if hbs = kHighsBasisStatusUpper then .Upper
  else if hbs = kHighsBasisStatusZero then .Zero
  else if hbs = kHighsBasisStatusNonbasic then .NonBasic
  else .UnknownBasisStatus

/-- `ModelStatus` (src `model.go:55-75`). -/
inductive ModelStatus where
  | UnknownModelStatus
  | NotSet
  | LoadError
  | ModelError
  | PresolveError
  | SolveError
  | PostsolveError
  | ModelEmpty
  | Optimal
  | Infeasible
  | UnboundedOrInfeasible
  | Unbounded
  | ObjectiveBound
  | ObjectiveTarget
  | TimeLimit
  | IterationLimit
deriving DecidableEq, Repr

/-- `convertHighsModelStatus` (src `model.go:78-113`); the
`kHighsModelStatus` codes are numbered `0..14` in declaration order, and any
unrecognized code maps to `UnknownModelStatus`. -/
def convertHighsModelStatus (hms : Int) : ModelStatus :=
  if hms = 0 then .NotSet
  else if hms = 1 then .LoadError
  else if hms = 2 then .ModelError
  else if hms = 3 then .PresolveError
  else if hms = 4 then .SolveError
  else if hms = 5 then .PostsolveError
  else if hms = 6 then .ModelEmpty
  else if hms = 7 then .Optimal
  else if hms = 8 then .Infeasible
  else if hms = 9 then .UnboundedOrInfeasible
  else if hms = 10 then .Unbounded
  else if hms = 11 then .ObjectiveBound
  else if hms = 12 then .ObjectiveTarget
  else if hms = 13 then .TimeLimit
  else if hms = 14 then .IterationLimit
  else .UnknownModelStatus

/-- One backend interaction as observed by `(*RawModel).Solve`
(src `raw-model.go:409-471`): the status each HiGHS call would return and the
data each call would write.  `colValue`/`colDual`/`rowValue`/`rowDual` are
what `Highs_getSolution` fills in, `objectiveValue` is the
`objective_function_value` info, `dualSolutionStatus` and `basisValidity` the
values of the two info queries, and `dualInfoStatus`/`basisInfoStatus` the
statuses of those queries (`Highs_getIntInfoValue`). -/
structure RawBackend where
  runStatus : Int := kHighsStatusOk
  modelStatus : Int := 7
  getSolutionStatus : Int := kHighsStatusOk
  colValue : List ℚ := []
  colDual : List ℚ := []
  rowValue : List ℚ := []
  rowDual : List ℚ := []
  objectiveInfoStatus : Int := kHighsStatusOk
  objectiveValue : ℚ := 0
  dualInfoStatus : Int := kHighsStatusOk
  dualSolutionStatus : Int := kHighsSolutionStatusNone
  basisInfoStatus : Int := kHighsStatusOk
  basisValidity : Int := kHighsBasisValidityInvalid
  getBasisStatus : Int := kHighsStatusOk
  colBasisRaw : List Int := []
  rowBasisRaw : List Int := []
deriving DecidableEq, Repr

/-- The `RawSolution` fields populated by `(*RawModel).Solve` (the struct
embeds `Solution`; see src `raw-soln.go:19-22` and the assignments in
`raw-model.go:419-469`).  Dual and basis slices start out as Go `nil`
(`none`) and are only assigned under the conditions of
`raw-model.go:441-469`. -/
structure RawSolutionGo where
  Status : ModelStatus
  ColumnPrimal : List ℚ := []
  RowPrimal : List ℚ := []
  ColumnDual : Option (List ℚ) := none
  RowDual : Option (List ℚ) := none
  ColumnBasis : Option (List BasisStatus) := none
  RowBasis : Option (List BasisStatus) := none
  Objective : ℚ := 0
deriving DecidableEq, Repr

/-- The solution fields `(*RawModel).Solve` populates unconditionally
(src `raw-model.go:419-439`): model status, primal vectors and the
backend-reported objective. -/
def rawSolveBase (b : RawBackend) : RawSolutionGo :=
  { Status := convertHighsModelStatus b.modelStatus,
    ColumnPrimal := b.colValue,
    RowPrimal := b.rowValue,
    Objective := b.objectiveValue }

/-- The dual-assignment step of `(*RawModel).Solve`
(src `raw-model.go:441-449`): dual slices are assigned only if the
`dual_solution_status` info is `kHighsSolutionStatusFeasible`. -/
def rawSolveDuals (b : RawBackend) : RawSolutionGo :=
  if b.dualSolutionStatus = kHighsSolutionStatusFeasible then
    { rawSolveBase b with ColumnDual := some b.colDual, RowDual := some b.rowDual }
  else rawSolveBase b

/-- `(*RawModel).Solve` (src `raw-model.go:409-471`): run the solver, read
the model status and the primal/dual arrays, read the objective from the
backend, then assign dual slices per `rawSolveDuals`, and assign basis
slices only if the `basis_validity` info query succeeds (`err == nil`) with
value `kHighsBasisValidityValid` (a failing basis query is ignored; a
failing `Highs_getBasis` aborts).  Every other non-`Ok` status aborts the
solve with the corresponding `CallStatus` as the error. -/
def rawSolve (b : RawBackend) : Except CallStatus RawSolutionGo :=
  match newCallStatus b.runStatus "Highs_run" "Solve" with
  | some cs => .error cs
  | none =>
    match newCallStatus b.getSolutionStatus "Highs_getSolution" "Solve" with
    | some cs => .error cs
    | none =>
      match newCallStatus b.objectiveInfoStatus "Highs_getDoubleInfoValue" "GetFloat64Info" with
      | some cs => .error cs
      | none =>
        match newCallStatus b.dualInfoStatus "Highs_getIntInfoValue" "GetIntInfo" with
        | some cs => .error cs
        | none =>
          if (newCallStatus b.basisInfoStatus "Highs_getIntInfoValue" "GetIntInfo").isNone
              ∧ b.basisValidity = kHighsBasisValidityValid then
            match newCallStatus b.getBasisStatus "Highs_getBasis" "Solve" with
            | some cs => .error cs
            | none =>
              .ok { rawSolveDuals b with
                ColumnBasis := some (b.colBasisRaw.map convertHighsBasisStatus),
                RowBasis := some (b.rowBasisRaw.map convertHighsBasisStatus) }
          else
            .ok (rawSolveDuals b)

/-! ## Specification-side definitions

Definitions that follow the wording of the specification (for refinement
claims these are compared with the definitions embedded from the source). -/

/-- `(largest column index in the list) + 1`, or `0` for an empty list (and
clamped at `0`, as no negative index can enlarge an inferred dimension). -/
def maxColIndexP1 (l : List Nonzero) : Int :=
  l.foldr (fun nz acc => max (nz.Col + 1) acc) 0

/-- `(largest row index in the list) + 1`, or `0` for an empty list. -/
def maxRowIndexP1 (l : List Nonzero) : Int :=
  l.foldr (fun nz acc => max (nz.Row + 1) acc) 0

/-- The column count as claimed by the spec (§4.3): the maximum of the
largest column index across the constraint *and Hessian* matrices plus one,
`len(costs)`, `len(colLower)`, `len(colUpper)` and `len(variableTypes)`. -/
def claimNumCols (cm hess : List Nonzero) (nCosts nColLower nColUpper nVarTypes : Nat) : Int :=
  max (max (max (max (maxColIndexP1 (cm ++ hess)) (nCosts : Int)) (nColLower : Int))
    (nColUpper : Int)) (nVarTypes : Int)

/-- The row count as claimed by the spec (§4.3): the maximum of the largest
row index across the constraint matrix plus one, `len(rowLower)` and
`len(rowUpper)`. -/
def claimNumRows (cm : List Nonzero) (nRowLower nRowUpper : Nat) : Int :=
  max (max (maxRowIndexP1 cm) (nRowLower : Int)) (nRowUpper : Int)

/-- The objective formula claimed by the spec (§4.6) for the LP/MIP paths:
`offset + Σ(cost_i × primal_i)`. -/
def specLinearObjective (offset : ℚ) (costs primal : List ℚ) : ℚ :=
  offset + (List.zipWith (fun c p => c * p) costs primal).sum

/-- The quadratic term claimed by the spec (§4.6) for the QP path:
`Σ over Hessian entries (r,c,h): primal_r × primal_c × h / 2`, doubled when
`r ≠ c`. -/
def specQuadTerm (primal : List ℚ) (hessian : List Nonzero) : ℚ :=
  (hessian.map (fun nz =>
    let t := primal.getD nz.Row.toNat 0 * primal.getD nz.Col.toNat 0 * nz.Val / 2
    if nz.Row ≠ nz.Col then t * 2 else t)).sum

/-- Modelled from the spec: the repository contains no CSR decoder (only the
encoder), so the decoder is taken from §4.2's reading of the format: each
`start` entry is the offset into `value` where the next (nonempty) row
begins, rows numbered consecutively from `0`.  `r` is the row most recently
begun (initially `-1`), `j` the current offset into `value`, and the entries
are the zipped `(index, value)` pairs. -/
def csrDecodeGo (r : Int) (j : Nat) : List Int → List (Int × ℚ) → List Nonzero
  | _, [] => []
  | s :: starts, (c, v) :: rest =>
    if s = (j : Int) then
      { Row := r + 1, Col := c, Val := v } :: csrDecodeGo (r + 1) (j + 1) starts rest
    else
      { Row := r, Col := c, Val := v } :: csrDecodeGo r (j + 1) (s :: starts) rest
  | [], (c, v) :: rest =>
    { Row := r, Col := c, Val := v } :: csrDecodeGo r (j + 1) [] rest

/-- Modelled from the spec (§4.2): decode a `(start, index, value)` CSR
triple back into a coordinate list. -/
def csrDecode (start index : List Int) (value : List ℚ) : List Nonzero :=
  csrDecodeGo (-1) 0 start (index.zip value)

/-- An interior all-zero row: a row index strictly between two occupied rows
that no entry occupies. -/
def hasInteriorEmptyRow (l : List Nonzero) : Prop :=
  ∃ r : Int, (∃ e ∈ l, e.Row < r) ∧ (∃ e ∈ l, r < e.Row) ∧ ∀ e ∈ l, e.Row ≠ r

/-- Rows of the list climb from `r` in steps of zero or one: every occupied
row from `r + 1` up to the largest occupied row is actually occupied.  With
`r = -1` this says the occupied rows are exactly `0, 1, …, rmax`. -/
def rowsContiguousFrom (r : Int) : List Nonzero → Prop
  | [] => True
  | v :: rest => (v.Row = r ∨ v.Row = r + 1) ∧ rowsContiguousFrom v.Row rest

/-! ## Canonicalizer infrastructure -/

/-- The `(Row, Col)` key of an entry; duplicate detection and ordering only
ever look at this pair. -/
def nzKey (v : Nonzero) : Int × Int := (v.Row, v.Col)

/-- Collapse a filtered run: the single entry that survives duplicate
elision for key `k` carries the value of the last entry of the run. -/
def keepLast (k : Int × Int) (xs : List Nonzero) : List Nonzero :=
  match xs.getLast? with
  | none => []
  | some e => [{ Row := k.1, Col := k.2, Val := e.Val }]

theorem nzKey_eq_iff {a b : Nonzero} : nzKey a = nzKey b ↔ a.Row = b.Row ∧ a.Col = b.Col := by
  simp [nzKey, Prod.ext_iff]

theorem keyLe_of_nzKey_eq {a b : Nonzero} (h : nzKey a = nzKey b) : keyLe a b := by
  rw [nzKey_eq_iff] at h
  unfold keyLe
  omega

theorem keyLt_of_keyLe_ne {a b : Nonzero} (h : keyLe a b) (hne : nzKey a ≠ nzKey b) :
    keyLt a b := by
  rw [Ne, nzKey_eq_iff] at hne
  unfold keyLe at h
  unfold keyLt
  omega

theorem keyLt_of_keyLt_of_keyLe {a b c : Nonzero} (h1 : keyLt a b) (h2 : keyLe b c) :
    keyLt a c := by
  unfold keyLt at *
  unfold keyLe at h2
  omega

theorem nzKey_ne_of_keyLt {a b : Nonzero} (h : keyLt a b) : nzKey a ≠ nzKey b := by
  rw [Ne, nzKey_eq_iff]
  unfold keyLt at h
  omega

theorem keyLe_congr_left {a a' b : Nonzero} (h : nzKey a = nzKey a') (hab : keyLe a b) :
    keyLe a' b := by
  rw [nzKey_eq_iff] at h
  unfold keyLe at *
  omega

theorem keyLt_congr_right {a b b' : Nonzero} (h : nzKey b = nzKey b') (hab : keyLt a b) :
    keyLt a b' := by
  rw [nzKey_eq_iff] at h
  unfold keyLt at *
  omega

theorem keyLe_of_keyLt {a b : Nonzero} (h : keyLt a b) : keyLe a b := by
  unfold keyLt at h
  unfold keyLe
  omega

/-- Inserting `a` into `l` puts `a` in front of every entry of `l` that
shares its key (stability of the sort, key-equal half). -/
theorem filter_orderedInsert_same (a : Nonzero) (l : List Nonzero) :
    (List.orderedInsert keyLe a l).filter (fun x => nzKey x == nzKey a) =
      a :: l.filter (fun x => nzKey x == nzKey a) := by
  induction l with
  | nil => simp [List.orderedInsert]
  | cons b t ih =>
    by_cases hab : keyLe a b
    · simp [List.orderedInsert, hab]
    · have hbk : nzKey b ≠ nzKey a := by
        intro hk
        exact hab (keyLe_of_nzKey_eq hk.symm)
      simp only [List.orderedInsert, if_neg hab, List.filter_cons]
      rw [ih]
      simp [hbk]

/-- Inserting `a` into `l` does not disturb the entries whose key differs
from `a`'s (stability of the sort, key-distinct half). -/
theorem filter_orderedInsert_ne (a : Nonzero) (l : List Nonzero) (k : Int × Int)
    (h : nzKey a ≠ k) :
    (List.orderedInsert keyLe a l).filter (fun x => nzKey x == k) =
      l.filter (fun x => nzKey x == k) := by
  induction l with
  | nil => simp [List.orderedInsert, h]
  | cons b t ih =>
    by_cases hab : keyLe a b
    · simp [List.orderedInsert, hab, h]
    · simp only [List.orderedInsert, if_neg hab, List.filter_cons]
      rw [ih]

/-- The stable sort preserves, for every key, the subsequence of entries
carrying that key (this is exactly stability for a sort ordered by keys). -/
theorem filter_sortNz (l : List Nonzero) (k : Int × Int) :
    (sortNz l).filter (fun x => nzKey x == k) = l.filter (fun x => nzKey x == k) := by
  induction l with
  | nil => rfl
  | cons a t ih =>
    unfold sortNz at ih ⊢
    show (List.orderedInsert keyLe a (List.insertionSort keyLe t)).filter _ = _
    by_cases hk : nzKey a = k
    · subst hk
      rw [filter_orderedInsert_same]
      rw [ih]
      simp
    · rw [filter_orderedInsert_ne a _ k hk, ih]
      simp [hk]

/-- On a sorted list, duplicate elision keeps, for every key, exactly one
entry, carrying the value of the last entry of that key's run. -/
theorem elideRun_filter (s : List Nonzero) (prev : Nonzero) (k : Int × Int)
    (h : List.Pairwise keyLe (prev :: s)) :
    (elideRun prev s).filter (fun x => nzKey x == k) =
      keepLast k ((prev :: s).filter (fun x => nzKey x == k)) := by
  induction s generalizing prev with
  | nil =>
    by_cases hk : nzKey prev = k
    · cases k with
      | mk k1 k2 =>
        cases prev with
        | mk r c q =>
          simp only [nzKey, Prod.mk.injEq] at hk
          obtain ⟨rfl, rfl⟩ := hk
          simp [elideRun, keepLast, nzKey]
    · simp [elideRun, keepLast, hk]
  | cons v rest ih =>
    rcases List.pairwise_cons.mp h with ⟨hprev, hvr⟩
    rcases List.pairwise_cons.mp hvr with ⟨hv, hrest⟩
    by_cases hdup : v.Row = prev.Row ∧ v.Col = prev.Col
    · have hkv : nzKey v = nzKey prev := nzKey_eq_iff.mpr hdup
      have hpair : List.Pairwise keyLe ({ prev with Val := v.Val } :: rest) := by
        refine List.pairwise_cons.mpr ⟨fun x hx => ?_, hrest⟩
        exact keyLe_congr_left rfl (hprev x (List.mem_cons_of_mem v hx))
      have lhs : elideRun prev (v :: rest) = elideRun { prev with Val := v.Val } rest := by
        simp [elideRun, hdup]
      rw [lhs, ih _ hpair]
      by_cases hk : nzKey prev = k
      · have hvk : nzKey v = k := hkv.trans hk
        have hpk' : nzKey { prev with Val := v.Val } = k := hk
        simp only [List.filter_cons, hpk', hk, hvk, beq_self_eq_true, if_pos trivial]
        cases hfr : rest.filter (fun x => nzKey x == k) with
        | nil => simp [keepLast]
        | cons f fs => simp [keepLast, List.getLast?_cons_cons]
      · have hvk : ¬(nzKey v == k) = true := by
          simp only [beq_iff_eq, hkv]
          exact hk
        have hpk : ¬(nzKey prev == k) = true := by simp only [beq_iff_eq]; exact hk
        have hpk' : ¬(nzKey { prev with Val := v.Val } == k) = true := hpk
        simp only [List.filter_cons, if_neg hvk, if_neg hpk, if_neg hpk']
    · have hne : nzKey v ≠ nzKey prev := by
        rw [Ne, nzKey_eq_iff]
        exact hdup
      have hlt : keyLt prev v := keyLt_of_keyLe_ne (hprev v (List.mem_cons_self v rest)) hne.symm
      have lhs : elideRun prev (v :: rest) = prev :: elideRun v rest := by
        simp [elideRun, hdup]
      rw [lhs]
      by_cases hk : nzKey prev = k
      · have hall : ∀ x ∈ v :: rest, nzKey x ≠ k := by
          intro x hx
          rcases List.mem_cons.mp hx with rfl | hx'
          · rw [← hk]
            exact hne
          · have : keyLt prev x := keyLt_of_keyLt_of_keyLe hlt (hv x hx')
            rw [← hk]
            exact fun hc => nzKey_ne_of_keyLt this hc.symm
        have hfilter : (v :: rest).filter (fun x => nzKey x == k) = [] := by
          simp only [List.filter_eq_nil_iff]
          intro a ha
          simp only [beq_iff_eq]
          exact hall a ha
        have h2 : (elideRun v rest).filter (fun x => nzKey x == k) = [] := by
          rw [ih _ hvr, hfilter]
          rfl
        have hpk : (nzKey prev == k) = true := by simp only [beq_iff_eq]; exact hk
        cases k with
        | mk k1 k2 =>
          cases prev with
          | mk r c q =>
            simp only [nzKey, Prod.mk.injEq] at hk
            obtain ⟨rfl, rfl⟩ := hk
            have e1 : ((⟨r, c, q⟩ : Nonzero) :: elideRun v rest).filter
                (fun x => nzKey x == (r, c)) = [⟨r, c, q⟩] := by
              simp only [List.filter_cons, hpk, if_true, h2]
            have e2 : ((⟨r, c, q⟩ : Nonzero) :: v :: rest).filter
                (fun x => nzKey x == (r, c)) = [⟨r, c, q⟩] := by
              rw [List.filter_cons, hfilter]
              simp only [hpk, if_true]
            rw [e1, e2]
            simp [keepLast]
      · have hpk : ¬(nzKey prev == k) = true := by simp only [beq_iff_eq]; exact hk
        have hL : (prev :: elideRun v rest).filter (fun x => nzKey x == k) =
            (elideRun v rest).filter (fun x => nzKey x == k) := by
          simp only [List.filter_cons, if_neg hpk]
        have hR : (prev :: v :: rest).filter (fun x => nzKey x == k) =
            (v :: rest).filter (fun x => nzKey x == k) := by
          simp only [List.filter_cons, if_neg hpk]
        rw [hL, hR]
        exact ih _ hvr

/-- The first entry emitted by `elideRun` carries `prev`'s key. -/
theorem elideRun_head_key (s : List Nonzero) (prev : Nonzero) :
    ∃ e, (elideRun prev s).head? = some e ∧ nzKey e = nzKey prev := by
  induction s generalizing prev with
  | nil => exact ⟨prev, rfl, rfl⟩
  | cons v rest ih =>
    by_cases hdup : v.Row = prev.Row ∧ v.Col = prev.Col
    · have lhs : elideRun prev (v :: rest) = elideRun { prev with Val := v.Val } rest := by
        simp [elideRun, hdup]
      rw [lhs]
      exact ih { prev with Val := v.Val }
    · have lhs : elideRun prev (v :: rest) = prev :: elideRun v rest := by
        simp [elideRun, hdup]
      rw [lhs]
      exact ⟨prev, rfl, rfl⟩

/-- On a sorted list, duplicate elision yields a strictly increasing (hence
duplicate-free) sequence of keys. -/
theorem elideRun_chain (s : List Nonzero) (prev : Nonzero)
    (h : List.Pairwise keyLe (prev :: s)) :
    List.Chain' keyLt (elideRun prev s) := by
  induction s generalizing prev with
  | nil => simp [elideRun]
  | cons v rest ih =>
    rcases List.pairwise_cons.mp h with ⟨hprev, hvr⟩
    rcases List.pairwise_cons.mp hvr with ⟨hv, hrest⟩
    by_cases hdup : v.Row = prev.Row ∧ v.Col = prev.Col
    · have hpair : List.Pairwise keyLe ({ prev with Val := v.Val } :: rest) := by
        refine List.pairwise_cons.mpr ⟨fun x hx => ?_, hrest⟩
        exact keyLe_congr_left rfl (hprev x (List.mem_cons_of_mem v hx))
      have lhs : elideRun prev (v :: rest) = elideRun { prev with Val := v.Val } rest := by
        simp [elideRun, hdup]
      rw [lhs]
      exact ih _ hpair
    · have hne : nzKey v ≠ nzKey prev := by
        rw [Ne, nzKey_eq_iff]
        exact hdup
      have hlt : keyLt prev v := keyLt_of_keyLe_ne (hprev v (List.mem_cons_self v rest)) hne.symm
      have lhs : elideRun prev (v :: rest) = prev :: elideRun v rest := by
        simp [elideRun, hdup]
      rw [lhs]
      rw [List.chain'_cons']
      refine ⟨?_, ih _ hvr⟩
      intro y hy
      rcases elideRun_head_key rest v with ⟨e, he, hek⟩
      rw [he] at hy
      cases hy
      exact keyLt_congr_right hek.symm hlt

/-- Every entry surviving duplicate elision has the key of some input
entry. -/
theorem elideRun_key_mem (s : List Nonzero) (prev : Nonzero) (e : Nonzero)
    (he : e ∈ elideRun prev s) :
    ∃ e', e' ∈ prev :: s ∧ nzKey e' = nzKey e := by
  induction s generalizing prev with
  | nil =>
    simp only [elideRun, List.mem_singleton] at he
    exact ⟨prev, List.mem_cons_self _ _, by rw [he]⟩
  | cons v rest ih =>
    by_cases hdup : v.Row = prev.Row ∧ v.Col = prev.Col
    · have lhs : elideRun prev (v :: rest) = elideRun { prev with Val := v.Val } rest := by
        simp [elideRun, hdup]
      rw [lhs] at he
      rcases ih _ he with ⟨e', he', hk⟩
      rcases List.mem_cons.mp he' with rfl | hr
      · exact ⟨prev, List.mem_cons_self _ _, hk⟩
      · exact ⟨e', List.mem_cons_of_mem _ (List.mem_cons_of_mem _ hr), hk⟩
    · have lhs : elideRun prev (v :: rest) = prev :: elideRun v rest := by
        simp [elideRun, hdup]
      rw [lhs] at he
      rcases List.mem_cons.mp he with rfl | hr
      · exact ⟨e, List.mem_cons_self _ _, rfl⟩
      · rcases ih _ hr with ⟨e', he', hk⟩
        exact ⟨e', List.mem_cons_of_mem _ he', hk⟩

/-- Duplicate elision is the identity on a list with strictly increasing
keys. -/
theorem elideRun_id_of_chain (s : List Nonzero) (prev : Nonzero)
    (h : List.Chain' keyLt (prev :: s)) :
    elideRun prev s = prev :: s := by
  induction s generalizing prev with
  | nil => rfl
  | cons v rest ih =>
    have hlt : keyLt prev v := (List.chain'_cons.mp h).1
    have hdup : ¬(v.Row = prev.Row ∧ v.Col = prev.Col) := by
      have := nzKey_ne_of_keyLt hlt
      rw [Ne, nzKey_eq_iff] at this
      intro hc
      exact this ⟨hc.1.symm, hc.2.symm⟩
    have lhs : elideRun prev (v :: rest) = prev :: elideRun v rest := by
      simp [elideRun, hdup]
    rw [lhs, ih v (List.chain'_cons.mp h).2]

/-- Anatomy of a successful canonicalization: the result is
sort-then-elide, and every input entry passed the validity checks. -/
theorem filterNonzeros_ok (nz : List Nonzero) (tri : Bool) (l : List Nonzero)
    (h : filterNonzeros nz tri = .ok l) :
    l = elideDups (sortNz nz) ∧ (∀ e ∈ nz, 0 ≤ e.Row ∧ 0 ≤ e.Col) ∧
      (tri = true → ∀ e ∈ nz, e.Row ≤ e.Col) := by
  unfold filterNonzeros at h
  cases hf1 : nz.find? (fun v => v.Row < 0 || v.Col < 0) with
  | some v => rw [hf1] at h; cases h
  | none =>
    rw [hf1] at h
    have hnn : ∀ e ∈ nz, 0 ≤ e.Row ∧ 0 ≤ e.Col := by
      intro e he
      have := List.find?_eq_none.mp hf1 e he
      simp only [Bool.or_eq_true, decide_eq_true_eq, not_or] at this
      omega
    cases tri with
    | false =>
      simp only [Bool.false_eq_true, if_false, Except.ok.injEq] at h
      exact ⟨h.symm, hnn, by intro hc; cases hc⟩
    | true =>
      simp only [if_true] at h
      cases hf2 : nz.find? (fun v => v.Col < v.Row) with
      | some v => rw [hf2] at h; cases h
      | none =>
        rw [hf2] at h
        simp only [Except.ok.injEq] at h
        refine ⟨h.symm, hnn, fun _ e he => ?_⟩
        have := List.find?_eq_none.mp hf2 e he
        simp only [decide_eq_true_eq] at this
        omega

/-- A successful canonicalization is canonical: strictly increasing keys,
nonnegative coordinates, and (for a Hessian) upper-triangular entries. -/
theorem canonical_of_ok (nz : List Nonzero) (tri : Bool) (l : List Nonzero)
    (h : filterNonzeros nz tri = .ok l) :
    List.Chain' keyLt l ∧ (∀ e ∈ l, 0 ≤ e.Row ∧ 0 ≤ e.Col) ∧
      (tri = true → ∀ e ∈ l, e.Row ≤ e.Col) := by
  obtain ⟨heq, hnn, htri⟩ := filterNonzeros_ok nz tri l h
  subst heq
  have hsorted : List.Pairwise keyLe (sortNz nz) := List.sorted_insertionSort keyLe nz
  have hkey : ∀ e ∈ elideDups (sortNz nz), ∃ e' ∈ nz, nzKey e' = nzKey e := by
    intro e he
    cases hs : sortNz nz with
    | nil => rw [hs] at he; cases he
    | cons v s =>
      rw [hs] at he
      rcases elideRun_key_mem s v e he with ⟨e', he', hk⟩
      have : e' ∈ sortNz nz := by rw [hs]; exact he'
      have : e' ∈ nz := (List.perm_insertionSort keyLe nz).subset this
      exact ⟨e', this, hk⟩
  refine ⟨?_, ?_, ?_⟩
  · cases hs : sortNz nz with
    | nil => simp [elideDups]
    | cons v s =>
      show List.Chain' keyLt (elideDups (v :: s))
      exact elideRun_chain s v (hs ▸ hsorted)
  · intro e he
    rcases hkey e he with ⟨e', he', hk⟩
    rw [nzKey_eq_iff] at hk
    have := hnn e' he'
    omega
  · intro ht e he
    rcases hkey e he with ⟨e', he', hk⟩
    rw [nzKey_eq_iff] at hk
    have := htri ht e' he'
    omega

/-- Duplicate elision is the identity on a canonical list. -/
theorem elideDups_id_of_chain (l : List Nonzero) (h : List.Chain' keyLt l) :
    elideDups l = l := by
  cases l with
  | nil => rfl
  | cons v s => exact elideRun_id_of_chain s v h

/-- Canonicalizing a canonical list is a no-op. -/
theorem filterNonzeros_canonical_id (l : List Nonzero) (tri : Bool)
    (hchain : List.Chain' keyLt l) (hnn : ∀ e ∈ l, 0 ≤ e.Row ∧ 0 ≤ e.Col)
    (htri : tri = true → ∀ e ∈ l, e.Row ≤ e.Col) :
    filterNonzeros l tri = .ok l := by
  have hf1 : l.find? (fun v => v.Row < 0 || v.Col < 0) = none := by
    refine List.find?_eq_none.mpr fun x hx => ?_
    have := hnn x hx
    simp only [Bool.or_eq_true, decide_eq_true_eq, not_or]
    omega
  have hpw : List.Pairwise keyLe l := by
    have := List.chain'_iff_pairwise.mp hchain
    exact this.imp keyLe_of_keyLt
  have hs : sortNz l = l := List.Sorted.insertionSort_eq hpw
  have hd : elideDups l = l := elideDups_id_of_chain l hchain
  unfold filterNonzeros
  rw [hf1]
  cases tri with
  | false =>
    simp only [Bool.false_eq_true, if_false]
    rw [hs, hd]
  | true =>
    have hf2 : l.find? (fun v => v.Col < v.Row) = none := by
      refine List.find?_eq_none.mpr fun x hx => ?_
      have := htri rfl x hx
      simp only [decide_eq_true_eq]
      omega
    simp only [if_true]
    rw [hf2, hs, hd]

/-- C5.  For every coordinate list with non-negative indices,
canonicalization succeeds; its result has strictly increasing `(row, col)`
keys, and for every key it keeps exactly one entry whose value is that of
the last input entry carrying that key (the stable sort keeps equal-key runs
in input order, and elision keeps the last of each run); in particular
inserting `(0,0,1)` then `(0,0,2)` canonicalizes to the single entry
`(0,0,2)`. -/
theorem c5_canonicalize_stable_keep_last (nz : List Nonzero)
    (h : ∀ e ∈ nz, 0 ≤ e.Row ∧ 0 ≤ e.Col) :
    (∃ l, filterNonzeros nz false = .ok l ∧ List.Chain' keyLt l ∧
      ∀ k, l.filter (fun x => nzKey x == k) = keepLast k (nz.filter (fun x => nzKey x == k))) ∧
    filterNonzeros [⟨0, 0, 1⟩, ⟨0, 0, 2⟩] false = .ok [⟨0, 0, 2⟩] := by
  constructor
  · have hf1 : nz.find? (fun v => v.Row < 0 || v.Col < 0) = none := by
      refine List.find?_eq_none.mpr fun x hx => ?_
      have := h x hx
      simp only [Bool.or_eq_true, decide_eq_true_eq, not_or]
      omega
    have hsorted : List.Pairwise keyLe (sortNz nz) := List.sorted_insertionSort keyLe nz
    refine ⟨elideDups (sortNz nz), ?_, ?_, ?_⟩
    · unfold filterNonzeros
      rw [hf1]
      rfl
    · cases hs : sortNz nz with
      | nil => simp [elideDups]
      | cons v s =>
        show List.Chain' keyLt (elideDups (v :: s))
        exact elideRun_chain s v (hs ▸ hsorted)
    · intro k
      cases hs : sortNz nz with
      | nil =>
        have hlen : nz.length = 0 := by
          have := (List.perm_insertionSort keyLe nz).length_eq
          rw [show List.insertionSort keyLe nz = sortNz nz from rfl, hs] at this
          exact this.symm
        have : nz = [] := List.eq_nil_of_length_eq_zero hlen
        subst this
        simp [elideDups, keepLast]
      | cons v s =>
        have h1 : (elideRun v s).filter (fun x => nzKey x == k) =
            keepLast k ((v :: s).filter (fun x => nzKey x == k)) :=
          elideRun_filter s v k (hs ▸ hsorted)
        show (elideRun v s).filter (fun x => nzKey x == k) = _
        rw [h1, ← hs, filter_sortNz]
  · decide

/-- C6.  Canonicalization is idempotent: composing the canonicalizer with
itself (propagating errors) gives the canonicalizer, and re-canonicalizing a
canonicalizer output (an already-canonical sequence) is a no-op. -/
theorem c6_canonicalize_idempotent (nz : List Nonzero) (tri : Bool) :
    (filterNonzeros nz tri).bind (fun l => filterNonzeros l tri) = filterNonzeros nz tri ∧
    ∀ l, filterNonzeros nz tri = .ok l → filterNonzeros l tri = .ok l := by
  have key : ∀ l, filterNonzeros nz tri = .ok l → filterNonzeros l tri = .ok l := by
    intro l h
    obtain ⟨hchain, hnn, htri⟩ := canonical_of_ok nz tri l h
    exact filterNonzeros_canonical_id l tri hchain hnn htri
  refine ⟨?_, key⟩
  cases hf : filterNonzeros nz tri with
  | error e => rfl
  | ok l =>
    show (Except.ok l).bind (fun l => filterNonzeros l tri) = _
    simp only [Except.bind]
    exact key l hf

/-- C6 witness: idempotence evaluated at the concrete list
`[(0,0,1),(0,0,2)]`, whose canonical form is `[(0,0,2)]`. -/
theorem c6_canonicalize_idempotent_witness :
    (filterNonzeros [⟨0, 0, 1⟩, ⟨0, 0, 2⟩] false).bind (fun l => filterNonzeros l false) =
        filterNonzeros [⟨0, 0, 1⟩, ⟨0, 0, 2⟩] false ∧
    filterNonzeros [⟨0, 0, 2⟩] false = .ok [⟨0, 0, 2⟩] :=
  ⟨(c6_canonicalize_idempotent [⟨0, 0, 1⟩, ⟨0, 0, 2⟩] false).1,
   (c6_canonicalize_idempotent [⟨0, 0, 1⟩, ⟨0, 0, 2⟩] false).2 [⟨0, 0, 2⟩] (by decide)⟩

/-- C5 witness: the main statement applied to the concrete list
`[(0,0,1),(0,0,2)]`, discharging the non-negativity hypothesis. -/
theorem c5_canonicalize_stable_keep_last_witness :
    (∃ l, filterNonzeros [⟨0, 0, 1⟩, ⟨0, 0, 2⟩] false = .ok l ∧ List.Chain' keyLt l ∧
      ∀ k, l.filter (fun x => nzKey x == k) =
        keepLast k (([⟨0, 0, 1⟩, ⟨0, 0, 2⟩] : List Nonzero).filter (fun x => nzKey x == k))) ∧
    filterNonzeros [⟨0, 0, 1⟩, ⟨0, 0, 2⟩] false = .ok [⟨0, 0, 2⟩] :=
  c5_canonicalize_stable_keep_last [⟨0, 0, 1⟩, ⟨0, 0, 2⟩] (by decide)

/-- C8 counterexample.  The claim says any Hessian list containing an entry
with `row > col` fails with a not-upper-triangular error; but for the entry
`(-1, -2, 1)` (which has `row > col`) the negative-index check fires first
and canonicalization fails with the invalid-coordinate error instead. -/
theorem c8_counterexample :
    (⟨-1, -2, 1⟩ : Nonzero).Col < (⟨-1, -2, 1⟩ : Nonzero).Row ∧
    filterNonzeros [⟨-1, -2, 1⟩] true = .error (.invalidCoord (-1) (-2)) ∧
    filterNonzeros [⟨-1, -2, 1⟩] true ≠ .error (.notUpperTriangular (-1) (-2)) := by
  decide

/-- C8 (amended).  For a Hessian list with non-negative indices: if some
entry has `row > col`, canonicalization with `requireUpperTriangular` fails
with a not-upper-triangular error, and `(*QPModel).Solve` with that Hessian
fails before any backend call (whatever the rest of the model is); if every
entry is upper-triangular, canonicalization succeeds.  (With negative
indices present, the invalid-coordinate error takes precedence.) -/
theorem c8_upper_triangular_check (nz : List Nonzero)
    (hnn : ∀ e ∈ nz, 0 ≤ e.Row ∧ 0 ≤ e.Col) :
    ((∃ e ∈ nz, e.Col < e.Row) →
      (∃ r c, filterNonzeros nz true = .error (.notUpperTriangular r c) ∧ c < r) ∧
      ∀ m : QPGoModel, m.HessianMatrix = nz → ∃ err, qpSolvePrepare m = .error err) ∧
    ((∀ e ∈ nz, e.Row ≤ e.Col) → ∃ l, filterNonzeros nz true = .ok l) := by
  have hf1 : nz.find? (fun v => v.Row < 0 || v.Col < 0) = none := by
    refine List.find?_eq_none.mpr fun x hx => ?_
    have := hnn x hx
    simp only [Bool.or_eq_true, decide_eq_true_eq, not_or]
    omega
  constructor
  · intro hex
    have hsome : (nz.find? (fun v => v.Col < v.Row)).isSome = true := by
      rw [List.find?_isSome]
      rcases hex with ⟨e, he, hlt⟩
      exact ⟨e, he, by simpa using hlt⟩
    obtain ⟨w, hw⟩ := Option.isSome_iff_exists.mp hsome
    have hwp : w.Col < w.Row := by simpa using List.find?_some hw
    have herr : filterNonzeros nz true = .error (.notUpperTriangular w.Row w.Col) := by
      unfold filterNonzeros
      rw [hf1]
      simp only [if_true]
      rw [hw]
    refine ⟨⟨w.Row, w.Col, herr, hwp⟩, ?_⟩
    intro m hm
    unfold qpSolvePrepare
    cases hr : replaceNilSlices m.toGoModel with
    | none => exact ⟨.inconsistentDims, rfl⟩
    | some t =>
      obtain ⟨nr, nc, cm⟩ := t
      cases hcsr : nonzerosToCSR m.CoeffMatrix false with
      | error e => exact ⟨.matrix e, rfl⟩
      | ok acsr =>
        rw [hm, herr]
        exact ⟨.matrix (.notUpperTriangular w.Row w.Col), rfl⟩
  · intro hall
    have hf2 : nz.find? (fun v => v.Col < v.Row) = none := by
      refine List.find?_eq_none.mpr fun x hx => ?_
      have := hall x hx
      simp only [decide_eq_true_eq]
      omega
    refine ⟨elideDups (sortNz nz), ?_⟩
    unfold filterNonzeros
    rw [hf1]
    simp only [if_true]
    rw [hf2]

/-- C8 witness: the amended statement applied at the lower-triangular
Hessian `[(1,0,2)]` and at the upper-triangular Hessian `[(0,1,3)]`,
discharging the hypotheses. -/
theorem c8_upper_triangular_check_witness :
    (∃ r c, filterNonzeros [⟨1, 0, 2⟩] true = .error (.notUpperTriangular r c) ∧ c < r) ∧
    (∃ l, filterNonzeros [⟨0, 1, 3⟩] true = .ok l) :=
  ⟨((c8_upper_triangular_check [⟨1, 0, 2⟩] (by decide)).1 (by decide)).1,
   (c8_upper_triangular_check [⟨0, 1, 3⟩] (by decide)).2 (by decide)⟩

/-! ## CSR encoder lemmas -/

/-- Unfolding of the CSR loop when the entry begins a new row. -/
theorem csrGo_cons_new (prevRow : Int) (n : Nat) (v : Nonzero) (rest : List Nonzero)
    (h : v.Row > prevRow) :
    csrGo prevRow n (v :: rest) =
      ((n : Int) :: (csrGo v.Row (n + 1) rest).1,
        v.Col :: (csrGo v.Row (n + 1) rest).2.1,
        v.Val :: (csrGo v.Row (n + 1) rest).2.2) := by
  simp [csrGo, if_pos h]

/-- Unfolding of the CSR loop when the entry continues the current row. -/
theorem csrGo_cons_same (prevRow : Int) (n : Nat) (v : Nonzero) (rest : List Nonzero)
    (h : ¬v.Row > prevRow) :
    csrGo prevRow n (v :: rest) =
      ((csrGo prevRow (n + 1) rest).1,
        v.Col :: (csrGo prevRow (n + 1) rest).2.1,
        v.Val :: (csrGo prevRow (n + 1) rest).2.2) := by
  simp [csrGo, if_neg h]

/-- Structural invariants of the CSR loop: `index` and `value` have one
entry per input entry, and the `start` offsets are strictly increasing and
lie in `[n, n + length)`. -/
theorem csrGo_inv (l : List Nonzero) : ∀ (prevRow : Int) (n : Nat),
    (csrGo prevRow n l).2.1.length = l.length ∧
    (csrGo prevRow n l).2.2.length = l.length ∧
    List.Chain' (· < ·) (csrGo prevRow n l).1 ∧
    ∀ x ∈ (csrGo prevRow n l).1, (n : Int) ≤ x ∧ x < (n : Int) + l.length := by
  induction l with
  | nil => intro prevRow n; simp [csrGo]
  | cons v rest ih =>
    intro prevRow n
    by_cases hv : v.Row > prevRow
    · rw [csrGo_cons_new prevRow n v rest hv]
      obtain ⟨ih1, ih2, ih3, ih4⟩ := ih v.Row (n + 1)
      refine ⟨by simp [ih1], by simp [ih2], ?_, ?_⟩
      · rw [List.chain'_cons']
        refine ⟨fun y hy => ?_, ih3⟩
        have hmem : y ∈ (csrGo v.Row (n + 1) rest).1 := List.mem_of_mem_head? hy
        have := (ih4 y hmem).1
        push_cast at this ⊢
        omega
      · intro x hx
        rcases List.mem_cons.mp hx with rfl | hx'
        · simp only [List.length_cons]
          push_cast
          omega
        · have := ih4 x hx'
          simp only [List.length_cons]
          push_cast at this ⊢
          omega
    · rw [csrGo_cons_same prevRow n v rest hv]
      obtain ⟨ih1, ih2, ih3, ih4⟩ := ih prevRow (n + 1)
      refine ⟨by simp [ih1], by simp [ih2], ih3, ?_⟩
      intro x hx
      have := ih4 x hx
      simp only [List.length_cons]
      push_cast at this ⊢
      omega

/-- The CSR loop copies columns into `index` and coefficients into `value`
in order. -/
theorem csrGo_index_value (l : List Nonzero) : ∀ (prevRow : Int) (n : Nat),
    (csrGo prevRow n l).2.1 = l.map (·.Col) ∧ (csrGo prevRow n l).2.2 = l.map (·.Val) := by
  induction l with
  | nil => intro prevRow n; simp [csrGo]
  | cons v rest ih =>
    intro prevRow n
    by_cases hv : v.Row > prevRow
    · rw [csrGo_cons_new prevRow n v rest hv]
      obtain ⟨ih1, ih2⟩ := ih v.Row (n + 1)
      simp [ih1, ih2]
    · rw [csrGo_cons_same prevRow n v rest hv]
      obtain ⟨ih1, ih2⟩ := ih prevRow (n + 1)
      simp [ih1, ih2]

/-- One `start` entry is emitted per distinct row: on a list whose rows are
nondecreasing and at least `prevRow`, the number of `start` entries is the
number of distinct rows other than `prevRow` itself. -/
theorem csrGo_start_count (l : List Nonzero) : ∀ (prevRow : Int) (n : Nat),
    List.Pairwise (fun a b : Nonzero => a.Row ≤ b.Row) l →
    (∀ e ∈ l, prevRow ≤ e.Row) →
    (csrGo prevRow n l).1.length = ((l.map (·.Row)).toFinset.erase prevRow).card := by
  induction l with
  | nil => intro prevRow n _ _; simp [csrGo]
  | cons v rest ih =>
    intro prevRow n hpw hge
    rcases List.pairwise_cons.mp hpw with ⟨hv, hrest⟩
    by_cases hgt : v.Row > prevRow
    · rw [csrGo_cons_new prevRow n v rest hgt]
      have hih := ih v.Row (n + 1) hrest hv
      have hnp : prevRow ∉ (v.Row :: rest.map (·.Row)).toFinset := by
        simp only [List.toFinset_cons, Finset.mem_insert, List.mem_toFinset, List.mem_map,
          not_or]
        refine ⟨by omega, ?_⟩
        rintro ⟨e, he, rfl⟩
        have := hv e he
        omega
      have herase : ((v :: rest).map (·.Row)).toFinset.erase prevRow =
          (v.Row :: rest.map (·.Row)).toFinset := by
        simp only [List.map_cons]
        exact Finset.erase_eq_of_not_mem hnp
      rw [herase, List.toFinset_cons]
      by_cases hmem : v.Row ∈ (rest.map (·.Row)).toFinset
      · have hcard := Finset.card_erase_of_mem hmem
        have hpos : 0 < (rest.map (·.Row)).toFinset.card :=
          Finset.card_pos.mpr ⟨v.Row, hmem⟩
        rw [Finset.insert_eq_self.mpr hmem]
        simp only [List.length_cons, hih, hcard]
        omega
      · rw [Finset.card_insert_of_not_mem hmem]
        simp only [List.length_cons, hih, Finset.erase_eq_of_not_mem hmem]
    · have heq : v.Row = prevRow := le_antisymm (by omega) (hge v (List.mem_cons_self v rest))
      rw [csrGo_cons_same prevRow n v rest hgt]
      have hih := ih prevRow (n + 1) hrest (fun e he => by
        have := hv e he
        omega)
      rw [hih]
      congr 1
      simp only [List.map_cons, List.toFinset_cons, heq]
      exact (Finset.erase_insert_eq_erase _ _).symm

/-- Decoding inverts encoding when the rows climb contiguously from `r`. -/
theorem csr_roundtrip_go (l : List Nonzero) : ∀ (r : Int) (n : Nat),
    rowsContiguousFrom r l →
    csrDecodeGo r n (csrGo r n l).1 ((csrGo r n l).2.1.zip (csrGo r n l).2.2) = l := by
  induction l with
  | nil => intro r n _; simp [csrGo, csrDecodeGo]
  | cons v rest ih =>
    intro r n hc
    obtain ⟨hvr, hrest⟩ := hc
    rcases hvr with hvr | hvr
    · have hngt : ¬v.Row > r := by omega
      rw [csrGo_cons_same r n v rest hngt]
      simp only [List.zip_cons_cons]
      have hrest' : rowsContiguousFrom r rest := by rw [← hvr]; exact hrest
      have htail := ih r (n + 1) hrest'
      cases hs : (csrGo r (n + 1) rest).1 with
      | nil =>
        show ({ Row := r, Col := v.Col, Val := v.Val } : Nonzero) :: csrDecodeGo r (n + 1) []
            ((csrGo r (n + 1) rest).2.1.zip (csrGo r (n + 1) rest).2.2) = v :: rest
        rw [← hs, htail]
        congr 1
        cases v
        simp_all
      | cons s0 stail =>
        have hb := ((csrGo_inv rest r (n + 1)).2.2.2 s0 (by rw [hs]; exact List.mem_cons_self _ _)).1
        have hs0 : ¬s0 = (n : Int) := by push_cast at hb; omega
        show csrDecodeGo r n (s0 :: stail) _ = v :: rest
        simp only [csrDecodeGo, if_neg hs0]
        rw [← hs, htail]
        congr 1
        cases v
        simp_all
    · have hgt : v.Row > r := by omega
      rw [csrGo_cons_new r n v rest hgt]
      simp only [List.zip_cons_cons]
      have hstep : csrDecodeGo r n ((n : Int) :: (csrGo v.Row (n + 1) rest).1)
          ((v.Col, v.Val) :: ((csrGo v.Row (n + 1) rest).2.1.zip (csrGo v.Row (n + 1) rest).2.2)) =
          { Row := r + 1, Col := v.Col, Val := v.Val } ::
            csrDecodeGo (r + 1) (n + 1) (csrGo v.Row (n + 1) rest).1
              ((csrGo v.Row (n + 1) rest).2.1.zip (csrGo v.Row (n + 1) rest).2.2) := by
        simp [csrDecodeGo]
      rw [hstep]
      have htail := ih v.Row (n + 1) hrest
      rw [← hvr]
      rw [show (csrDecodeGo v.Row (n + 1) (csrGo v.Row (n + 1) rest).1
        ((csrGo v.Row (n + 1) rest).2.1.zip (csrGo v.Row (n + 1) rest).2.2)) = rest from htail]

/-- C7 counterexample.  The canonical one-entry matrix `[(1,0,1)]` occupies
only row 1; it has no interior all-zero row (there is no empty row strictly
between two occupied ones), yet decoding its CSR encoding yields
`[(0,0,1)]`, not the original: the compressed `start` form forgets the
leading empty row 0. -/
theorem c7_counterexample :
    ¬hasInteriorEmptyRow [⟨1, 0, 1⟩] ∧
    List.Chain' keyLt [⟨1, 0, 1⟩] ∧
    csrDecode (csrOf [⟨1, 0, 1⟩]).1 (csrOf [⟨1, 0, 1⟩]).2.1 (csrOf [⟨1, 0, 1⟩]).2.2 ≠
      [⟨1, 0, 1⟩] := by
  refine ⟨?_, List.chain'_singleton _, by decide⟩
  rintro ⟨r, ⟨e, he, hlt⟩, ⟨e', he', hgt⟩, -⟩
  simp only [List.mem_singleton] at he he'
  subst he
  subst he'
  simp only at hlt hgt
  omega

/-- C7 (amended).  For a canonical coordinate sequence with non-negative
rows, the CSR encoder emits one `start` entry per distinct occupied row
(rows with no nonzeros receive none), with `index` and `value` listing
column and coefficient per entry in canonical order; and when the occupied
rows are exactly `0..rmax` (no all-zero row at or below the largest occupied
row — in particular no leading empty row), decoding the triple reproduces
the canonical sequence exactly. -/
theorem c7_csr_encode_decode (l : List Nonzero) (h1 : List.Chain' keyLt l)
    (h2 : ∀ e ∈ l, 0 ≤ e.Row) (h3 : rowsContiguousFrom (-1) l) :
    (csrOf l).1.length = ((l.map (·.Row)).toFinset).card ∧
    (csrOf l).2.1 = l.map (·.Col) ∧
    (csrOf l).2.2 = l.map (·.Val) ∧
    csrDecode (csrOf l).1 (csrOf l).2.1 (csrOf l).2.2 = l := by
  have hrows : List.Pairwise (fun a b : Nonzero => a.Row ≤ b.Row) l :=
    List.Pairwise.imp (fun hab => by unfold keyLt at hab; omega)
      (List.chain'_iff_pairwise.mp h1)
  have hge : ∀ e ∈ l, (-1 : Int) ≤ e.Row := fun e he => by
    have := h2 e he
    omega
  refine ⟨?_, (csrGo_index_value l (-1) 0).1, (csrGo_index_value l (-1) 0).2,
    csr_roundtrip_go l (-1) 0 h3⟩
  rw [show csrOf l = csrGo (-1) 0 l from rfl, csrGo_start_count l (-1) 0 hrows hge]
  congr 1
  apply Finset.erase_eq_of_not_mem
  simp only [List.mem_toFinset, List.mem_map]
  rintro ⟨e, he, hre⟩
  have := h2 e he
  omega

/-- C7 witness: the amended statement applied to the concrete canonical
sequence `[(0,1,1),(1,0,2)]`, discharging all three hypotheses. -/
theorem c7_csr_encode_decode_witness :
    (csrOf [⟨0, 1, 1⟩, ⟨1, 0, 2⟩]).1.length =
      ((([⟨0, 1, 1⟩, ⟨1, 0, 2⟩] : List Nonzero).map (·.Row)).toFinset).card ∧
    (csrOf [⟨0, 1, 1⟩, ⟨1, 0, 2⟩]).2.1 =
      ([⟨0, 1, 1⟩, ⟨1, 0, 2⟩] : List Nonzero).map (·.Col) ∧
    (csrOf [⟨0, 1, 1⟩, ⟨1, 0, 2⟩]).2.2 =
      ([⟨0, 1, 1⟩, ⟨1, 0, 2⟩] : List Nonzero).map (·.Val) ∧
    csrDecode (csrOf [⟨0, 1, 1⟩, ⟨1, 0, 2⟩]).1 (csrOf [⟨0, 1, 1⟩, ⟨1, 0, 2⟩]).2.1
      (csrOf [⟨0, 1, 1⟩, ⟨1, 0, 2⟩]).2.2 = [⟨0, 1, 1⟩, ⟨1, 0, 2⟩] :=
  c7_csr_encode_decode [⟨0, 1, 1⟩, ⟨1, 0, 2⟩] (List.chain'_pair.mpr (by decide)) (by decide)
    (by simp [rowsContiguousFrom])

/-- C10.  For every coordinate list the CSR encoder accepts, the returned
`start` array is well formed: its first entry is `0` whenever there is at
least one nonzero, its entries are strictly increasing, every entry is a
valid (non-negative, in-bounds) index into `value`, and `index` and `value`
have equal length, equal to the number of canonical nonzeros. -/
theorem c10_csr_start_well_formed (nz : List Nonzero) (tri : Bool)
    (s ix : List Int) (vl : List ℚ)
    (h : nonzerosToCSR nz tri = .ok (s, ix, vl)) :
    (vl ≠ [] → s.head? = some 0) ∧
    List.Chain' (· < ·) s ∧
    (∀ x ∈ s, 0 ≤ x ∧ x < vl.length) ∧
    ix.length = vl.length ∧
    ∃ can, filterNonzeros nz tri = .ok can ∧ vl.length = can.length := by
  unfold nonzerosToCSR at h
  cases hf : filterNonzeros nz tri with
  | error e => rw [hf] at h; cases h
  | ok can =>
    rw [hf] at h
    simp only [Except.ok.injEq] at h
    have hs : s = (csrGo (-1) 0 can).1 := by
      rw [show csrGo (-1) 0 can = csrOf can from rfl, h]
    have hix : ix = (csrGo (-1) 0 can).2.1 := by
      rw [show csrGo (-1) 0 can = csrOf can from rfl, h]
    have hvl : vl = (csrGo (-1) 0 can).2.2 := by
      rw [show csrGo (-1) 0 can = csrOf can from rfl, h]
    subst hs
    subst hix
    subst hvl
    obtain ⟨i1, i2, i3, i4⟩ := csrGo_inv can (-1) 0
    have hnn : ∀ e ∈ can, 0 ≤ e.Row ∧ 0 ≤ e.Col := (canonical_of_ok nz tri can hf).2.1
    refine ⟨?_, i3, ?_, ?_, ?_⟩
    · intro hne
      cases hc : can with
      | nil =>
        rw [hc] at hne
        simp [csrGo] at hne
      | cons v rest =>
        have hr : v.Row > -1 := by
          have := (hnn v (by rw [hc]; exact List.mem_cons_self _ _)).1
          omega
        rw [csrGo_cons_new (-1) 0 v rest hr]
        simp
    · intro x hx
      have := i4 x hx
      rw [i2]
      push_cast at this ⊢
      omega
    · rw [i1, i2]
    · exact ⟨can, rfl, i2⟩

/-- C10 witness: the statement applied to the concrete list
`[(0,1,1),(1,0,2),(1,1,3)]`, discharging the acceptance hypothesis. -/
theorem c10_csr_start_well_formed_witness :
    (([1, 2, 3] : List ℚ) ≠ [] → ([0, 1] : List Int).head? = some 0) ∧
    List.Chain' (· < ·) ([0, 1] : List Int) ∧
    (∀ x ∈ ([0, 1] : List Int), 0 ≤ x ∧ x < ([1, 2, 3] : List ℚ).length) ∧
    ([1, 0, 1] : List Int).length = ([1, 2, 3] : List ℚ).length ∧
    ∃ can, filterNonzeros [⟨0, 1, 1⟩, ⟨1, 0, 2⟩, ⟨1, 1, 3⟩] false = .ok can ∧
      ([1, 2, 3] : List ℚ).length = can.length :=
  c10_csr_start_well_formed [⟨0, 1, 1⟩, ⟨1, 0, 2⟩, ⟨1, 1, 3⟩] false [0, 1] [1, 0, 1]
    [1, 2, 3] (by decide)

/-! ## Objective recomputation -/

/-- The linear objective loop computes `offset + Σ cost_i · primal_i` when
the cost vector covers the primal vector. -/
theorem recomputeLinear_eq (primal : List ℚ) : ∀ (costs : List ℚ) (offset : ℚ),
    primal.length = costs.length →
    recomputeLinear offset primal costs =
      some (offset + (List.zipWith (fun c p => c * p) costs primal).sum) := by
  induction primal with
  | nil =>
    intro costs offset h
    obtain rfl : costs = [] := List.eq_nil_of_length_eq_zero h.symm
    simp [recomputeLinear]
  | cons p ps ih =>
    intro costs offset h
    cases costs with
    | nil => simp at h
    | cons c cs =>
      simp only [List.length_cons, Nat.add_right_cancel_iff] at h
      rw [show recomputeLinear offset (p :: ps) (c :: cs) =
        recomputeLinear (offset + p * c) ps cs from rfl, ih cs (offset + p * c) h]
      simp only [List.zipWith_cons_cons, List.sum_cons, Option.some.injEq]
      ring

/-- The quadratic-term loop computes the spec's Hessian sum when every
Hessian index is in range for the primal vector. -/
theorem recomputeQuadratic_eq (hessian : List Nonzero) : ∀ (obj : ℚ) (primal : List ℚ),
    (∀ nz ∈ hessian, 0 ≤ nz.Row ∧ nz.Row.toNat < primal.length ∧
      0 ≤ nz.Col ∧ nz.Col.toNat < primal.length) →
    recomputeQuadratic obj primal hessian = some (obj + specQuadTerm primal hessian) := by
  induction hessian with
  | nil => intro obj primal _; simp [recomputeQuadratic, specQuadTerm]
  | cons nz rest ih =>
    intro obj primal hb
    obtain ⟨hr0, hrlt, hc0, hclt⟩ := hb nz (List.mem_cons_self nz rest)
    have e1 : (if 0 ≤ nz.Row then primal.get? nz.Row.toNat else none) =
        some (primal.getD nz.Row.toNat 0) := by
      rw [if_pos hr0, List.getD_eq_getElem?_getD, List.getElem?_eq_getElem hrlt,
        Option.getD_some, List.get?_eq_getElem?, List.getElem?_eq_getElem hrlt]
    have e2 : (if 0 ≤ nz.Col then primal.get? nz.Col.toNat else none) =
        some (primal.getD nz.Col.toNat 0) := by
      rw [if_pos hc0, List.getD_eq_getElem?_getD, List.getElem?_eq_getElem hclt,
        Option.getD_some, List.get?_eq_getElem?, List.getElem?_eq_getElem hclt]
    rw [show recomputeQuadratic obj primal (nz :: rest) =
      (match (if 0 ≤ nz.Row then primal.get? nz.Row.toNat else none),
          (if 0 ≤ nz.Col then primal.get? nz.Col.toNat else none) with
        | some pr, some pc =>
          let v := pr * pc * nz.Val / 2
          let v := if nz.Row ≠ nz.Col then v * 2 else v
          recomputeQuadratic (obj + v) primal rest
        | _, _ => none) from rfl, e1, e2]
    have hrest : ∀ x ∈ rest, 0 ≤ x.Row ∧ x.Row.toNat < primal.length ∧
        0 ≤ x.Col ∧ x.Col.toNat < primal.length :=
      fun x hx => hb x (List.mem_cons_of_mem nz hx)
    show recomputeQuadratic
        (obj + if nz.Row ≠ nz.Col
          then primal.getD nz.Row.toNat 0 * primal.getD nz.Col.toNat 0 * nz.Val / 2 * 2
          else primal.getD nz.Row.toNat 0 * primal.getD nz.Col.toNat 0 * nz.Val / 2)
        primal rest = _
    rw [ih _ primal hrest]
    simp only [specQuadTerm, List.map_cons, List.sum_cons, Option.some.injEq]
    ring

/-- C1.  The LP/MIP `Solve` methods set the solution's `Objective` field to
`offset + Σ(cost_i × primal_i)`, recomputed from the model's cost vector and
the returned primal vector; the QP `Solve` adds, for each canonical Hessian
entry `(r, c, h)`, the term `primal_r × primal_c × h / 2`, doubled when
`r ≠ c`; and in particular costs `[1, 1]`, offset `3`, primal `[0.5, 2.25]`
yield objective `5.75`. -/
theorem c1_objective_recomputed :
    (∀ (offset : ℚ) (primal costs : List ℚ), primal.length = costs.length →
      recomputeLinear offset primal costs = some (specLinearObjective offset costs primal)) ∧
    (∀ (offset : ℚ) (primal costs : List ℚ) (hessian : List Nonzero),
      primal.length = costs.length →
      (∀ nz ∈ hessian, 0 ≤ nz.Row ∧ nz.Row.toNat < primal.length ∧
        0 ≤ nz.Col ∧ nz.Col.toNat < primal.length) →
      qpObjective offset primal costs hessian =
        some (specLinearObjective offset costs primal + specQuadTerm primal hessian)) ∧
    recomputeLinear 3 [1/2, 9/4] [1, 1] = some (23/4) := by
  refine ⟨?_, ?_, by norm_num [recomputeLinear]⟩
  · intro offset primal costs h
    exact recomputeLinear_eq primal costs offset h
  · intro offset primal costs hessian h hb
    unfold qpObjective
    rw [recomputeLinear_eq primal costs offset h]
    exact recomputeQuadratic_eq hessian _ primal hb

/-- C1 witness: both formulas applied at concrete inputs — the cross-check
vector (costs `[1,1]`, offset `3`, primal `[1/2, 9/4]`) for the linear path
and a small Hessian for the QP path — with all hypotheses discharged. -/
theorem c1_objective_recomputed_witness :
    recomputeLinear 3 [1/2, 9/4] [1, 1] = some (specLinearObjective 3 [1, 1] [1/2, 9/4]) ∧
    qpObjective 0 [1/2, 5] [2, 0] [⟨0, 0, 2⟩, ⟨0, 1, -1⟩] =
      some (specLinearObjective 0 [2, 0] [1/2, 5] +
        specQuadTerm [1/2, 5] [⟨0, 0, 2⟩, ⟨0, 1, -1⟩]) :=
  ⟨c1_objective_recomputed.1 3 [1/2, 9/4] [1, 1] (by decide),
   c1_objective_recomputed.2.1 0 [1/2, 5] [2, 0] [⟨0, 0, 2⟩, ⟨0, 1, -1⟩] (by decide)
     (by decide)⟩

/-! ## Dimension inference -/

theorem if_ge_succ_eq_max (x a : Int) : (if x ≥ a then x + 1 else a) = max a (x + 1) := by
  split_ifs with h <;> rcases max_cases a (x + 1) with ⟨h1, h2⟩ | ⟨h1, h2⟩ <;> omega

theorem if_gt_eq_max (a x : Int) : (if a > x then a else x) = max x a := by
  split_ifs with h <;> rcases max_cases x a with ⟨h1, h2⟩ | ⟨h1, h2⟩ <;> omega

theorem maxRowIndexP1_nonneg (l : List Nonzero) : 0 ≤ maxRowIndexP1 l := by
  induction l with
  | nil => simp [maxRowIndexP1]
  | cons v rest ih =>
    unfold maxRowIndexP1 at *
    simp only [List.foldr_cons]
    exact le_trans ih (le_max_right _ _)

theorem maxColIndexP1_nonneg (l : List Nonzero) : 0 ≤ maxColIndexP1 l := by
  induction l with
  | nil => simp [maxColIndexP1]
  | cons v rest ih =>
    unfold maxColIndexP1 at *
    simp only [List.foldr_cons]
    exact le_trans ih (le_max_right _ _)

/-- The row/column inference loop of `replaceNilSlices` computes the largest
row index plus one and the largest column index plus one (clamped at 0). -/
theorem inferDims_eq (cm : List Nonzero) :
    inferDims cm = (maxRowIndexP1 cm, maxColIndexP1 cm) := by
  have main : ∀ (l : List Nonzero) (a b : Int), 0 ≤ a → 0 ≤ b →
      l.foldl (fun nrc nz =>
        (if nz.Row ≥ nrc.1 then nz.Row + 1 else nrc.1,
         if nz.Col ≥ nrc.2 then nz.Col + 1 else nrc.2)) (a, b) =
      (max a (maxRowIndexP1 l), max b (maxColIndexP1 l)) := by
    intro l
    induction l with
    | nil =>
      intro a b ha hb
      simp only [List.foldl_nil, maxRowIndexP1, maxColIndexP1, List.foldr_nil]
      rw [max_eq_left ha, max_eq_left hb]
    | cons v rest ih =>
      intro a b ha hb
      simp only [List.foldl_cons]
      rw [if_ge_succ_eq_max v.Row a, if_ge_succ_eq_max v.Col b]
      rw [ih (max a (v.Row + 1)) (max b (v.Col + 1))
        (le_trans ha (le_max_left _ _)) (le_trans hb (le_max_left _ _))]
      unfold maxRowIndexP1 maxColIndexP1
      simp only [List.foldr_cons]
      rw [max_assoc, max_assoc]
  unfold inferDims
  rw [main cm 0 0 le_rfl le_rfl]
  rw [max_eq_right (maxRowIndexP1_nonneg cm), max_eq_right (maxColIndexP1_nonneg cm)]

/-- C2 counterexample.  A QP model whose Hessian holds an entry in column 5
and whose other fields are empty: the spec's formula (which scans the
Hessian) gives a column count of 6, but the code's dimension inference never
looks at the Hessian and `(*QPModel).Solve` proceeds with `numCols = 0`
(and `numRows = 0`). -/
theorem c2_counterexample :
    claimNumCols ([] : List Nonzero) [⟨0, 5, 1⟩] 0 0 0 0 = 6 ∧
    qpSolvePrepare { HessianMatrix := [⟨0, 5, 1⟩] } =
      .ok { nr := 0, nc := 0,
            cm := { ColCosts := some [], ColLower := some [], ColUpper := some [],
                    RowLower := some [], RowUpper := some [] },
            acsr := ([], [], []), hessian := [⟨0, 5, 1⟩], qcsr := ([0], [5], [1]) } ∧
    (0 : Int) ≠ 6 := by
  decide

/-- C2 (amended).  Whenever `replaceNilSlices` succeeds, the inferred column
count is the maximum of `(largest column index in the constraint matrix)+1`,
`len(costs)`, `len(colLower)` and `len(colUpper)` — the Hessian matrix and
the variable-type vector do not participate — and the inferred row count is
the maximum of `(largest row index in the constraint matrix)+1`,
`len(rowLower)` and `len(rowUpper)`, as the claim states. -/
theorem c2_inferred_dimensions (m : GoModel) (nr nc : Int) (mc : GoModel)
    (h : replaceNilSlices m = some (nr, nc, mc)) :
    nc = max (max (max (maxColIndexP1 m.CoeffMatrix) (optLen m.ColCosts : Int))
        (optLen m.ColLower : Int)) (optLen m.ColUpper : Int) ∧
    nr = claimNumRows m.CoeffMatrix (optLen m.RowLower) (optLen m.RowUpper) := by
  unfold replaceNilSlices at h
  simp only [if_gt_eq_max, inferDims_eq] at h
  split_ifs at h with h1 h2 h3
  simp only [Option.some.injEq, Prod.mk.injEq] at h
  obtain ⟨hnr, hnc, -⟩ := h
  exact ⟨hnc.symm, hnr.symm⟩

/-- C2 witness: the amended statement applied to a concrete model with a
two-column constraint matrix, a length-1 cost vector and length-3 row lower
bounds, where the inference yields `numCols = 2`, `numRows = 3`. -/
theorem c2_inferred_dimensions_witness :
    (2 : Int) = max (max (max (maxColIndexP1 [⟨0, 1, 2⟩]) ((optLen (some [(1 : ℚ)]) : Nat) : Int))
        ((optLen (none : Option (List GoF)) : Nat) : Int))
      ((optLen (none : Option (List GoF)) : Nat) : Int) ∧
    (3 : Int) = claimNumRows [⟨0, 1, 2⟩]
      (optLen (some [GoF.fin 0, GoF.fin 1, GoF.fin 2])) (optLen (none : Option (List GoF))) :=
  c2_inferred_dimensions
    { ColCosts := some [1], RowLower := some [.fin 0, .fin 1, .fin 2],
      CoeffMatrix := [⟨0, 1, 2⟩] }
    3 2
    { ColCosts := some [1], RowLower := some [.fin 0, .fin 1, .fin 2],
      CoeffMatrix := [⟨0, 1, 2⟩],
      ColLower := some [.ninf, .ninf], ColUpper := some [.pinf, .pinf],
      RowUpper := some [.pinf, .pinf, .pinf] }
    (by decide)

/-- C3.  The claim (and the doc comment of `replaceNilSlices`) says a
dimension mismatch in any explicitly supplied vector is rejected before the
backend is called; but for a model with cost vector `[1]` and a constraint
entry in column 1 (inferred `numCols = 2`), `replaceNilSlices` succeeds —
its final `switch` checks `len(mc.ColLower) != nc` twice and never checks
`ColCosts` — and `(*LPModel).Solve` reaches the backend call with a cost
vector of length 1 for 2 columns; the objective loop over a length-2 primal
vector then indexes the length-1 cost vector out of range (`none`). -/
theorem c3_short_cost_vector_not_rejected :
    replaceNilSlices { ColCosts := some [1], CoeffMatrix := [⟨0, 1, 2⟩] } =
      some (1, 2,
        { ColCosts := some [1], CoeffMatrix := [⟨0, 1, 2⟩],
          ColLower := some [.ninf, .ninf], ColUpper := some [.pinf, .pinf],
          RowLower := some [.ninf], RowUpper := some [.pinf] }) ∧
    lpSolvePrepare { ColCosts := some [1], CoeffMatrix := [⟨0, 1, 2⟩] } =
      .ok { nr := 1, nc := 2,
            cm := { ColCosts := some [1], CoeffMatrix := [⟨0, 1, 2⟩],
                    ColLower := some [.ninf, .ninf], ColUpper := some [.pinf, .pinf],
                    RowLower := some [.ninf], RowUpper := some [.pinf] },
            acsr := ([0], [1], [2]) } ∧
    recomputeLinear 0 [0, 0] [1] = none := by
  decide

/-- C4 counterexample.  The claim says a backend `Warning` status lets the
solve succeed with the warning attached to the result; but when `Highs_run`
returns `kHighsStatusWarning`, `(*RawModel).Solve` returns no solution at
all — `newCallStatus` wraps the warning in a `CallStatus` and `Solve`
returns it as the error. -/
theorem c4_counterexample :
    (rawSolve { runStatus := kHighsStatusWarning }).toOption = none ∧
    rawSolve { runStatus := kHighsStatusWarning } =
      .error { Status := kHighsStatusWarning, CName := "Highs_run", GoName := "Solve" } := by
  constructor
  · rfl
  · rfl

/-- C4 (amended).  A `Warning` from `Highs_run` makes `(*RawModel).Solve`
abort: it returns the `CallStatus` as its error and no result; the warning
stays visible to the caller only through that error value, whose
`IsWarning()` reports `true` (distinguishing it from a hard `Error`). -/
theorem c4_warning_aborts_solve (b : RawBackend) (h : b.runStatus = kHighsStatusWarning) :
    rawSolve b = .error ⟨kHighsStatusWarning, "Highs_run", "Solve"⟩ ∧
    ∀ cs, rawSolve b = .error cs → cs.IsWarning = true := by
  have h1 : rawSolve b =
      .error { Status := kHighsStatusWarning, CName := "Highs_run", GoName := "Solve" } := by
    unfold rawSolve newCallStatus
    rw [h]
    rfl
  refine ⟨h1, fun cs hcs => ?_⟩
  rw [h1] at hcs
  injection hcs with h2
  rw [← h2]
  rfl

/-- C4 witness: the amended statement applied to a backend whose `Highs_run`
returns the warning status. -/
theorem c4_warning_aborts_solve_witness :
    rawSolve { runStatus := kHighsStatusWarning } =
      .error { Status := kHighsStatusWarning, CName := "Highs_run", GoName := "Solve" } :=
  (c4_warning_aborts_solve { runStatus := kHighsStatusWarning } rfl).1

/-- `newCallStatus` returns `nil` exactly for the `Ok` status. -/
theorem newCallStatus_isNone (st : Int) (hName gName : String) :
    (newCallStatus st hName gName).isNone = true ↔ st = kHighsStatusOk := by
  unfold newCallStatus
  split_ifs with hst <;> simp [hst]

theorem newCallStatus_of_ok {st : Int} (hst : st = kHighsStatusOk) (hName gName : String) :
    newCallStatus st hName gName = none := by
  unfold newCallStatus
  rw [if_pos hst]

theorem newCallStatus_of_not_ok {st : Int} (hst : ¬st = kHighsStatusOk)
    (hName gName : String) :
    newCallStatus st hName gName = some ⟨st, hName, gName⟩ := by
  unfold newCallStatus
  rw [if_neg hst]

/-- C9.  For every successful raw-model solve, the dual vectors are
non-absent exactly when the backend's `dual_solution_status` query reports
feasible, and the basis vectors are non-absent exactly when the
`basis_validity` query succeeds and reports valid; in every other case they
stay absent while the solve still returns a solution. -/
theorem c9_dual_basis_gating (b : RawBackend) (s : RawSolutionGo)
    (h : rawSolve b = .ok s) :
    (s.ColumnDual.isSome = true ↔ b.dualSolutionStatus = kHighsSolutionStatusFeasible) ∧
    (s.RowDual.isSome = true ↔ b.dualSolutionStatus = kHighsSolutionStatusFeasible) ∧
    (s.ColumnBasis.isSome = true ↔
      b.basisInfoStatus = kHighsStatusOk ∧ b.basisValidity = kHighsBasisValidityValid) ∧
    (s.RowBasis.isSome = true ↔
      b.basisInfoStatus = kHighsStatusOk ∧ b.basisValidity = kHighsBasisValidityValid) := by
  have hduals : ((rawSolveDuals b).ColumnDual.isSome = true ↔
      b.dualSolutionStatus = kHighsSolutionStatusFeasible) ∧
      ((rawSolveDuals b).RowDual.isSome = true ↔
        b.dualSolutionStatus = kHighsSolutionStatusFeasible) := by
    unfold rawSolveDuals rawSolveBase
    by_cases h7 : b.dualSolutionStatus = kHighsSolutionStatusFeasible
    · simp [if_pos h7, h7]
    · simp [if_neg h7, h7]
  unfold rawSolve at h
  by_cases h1 : b.runStatus = kHighsStatusOk
  case neg => rw [newCallStatus_of_not_ok h1] at h; cases h
  rw [newCallStatus_of_ok h1] at h
  by_cases h2 : b.getSolutionStatus = kHighsStatusOk
  case neg => rw [newCallStatus_of_not_ok h2] at h; cases h
  rw [newCallStatus_of_ok h2] at h
  by_cases h3 : b.objectiveInfoStatus = kHighsStatusOk
  case neg => rw [newCallStatus_of_not_ok h3] at h; cases h
  rw [newCallStatus_of_ok h3] at h
  by_cases h4 : b.dualInfoStatus = kHighsStatusOk
  case neg => rw [newCallStatus_of_not_ok h4] at h; cases h
  rw [newCallStatus_of_ok h4] at h
  by_cases h5 : (newCallStatus b.basisInfoStatus "Highs_getIntInfoValue" "GetIntInfo").isNone
      = true ∧ b.basisValidity = kHighsBasisValidityValid
  · rw [if_pos h5] at h
    by_cases h6 : b.getBasisStatus = kHighsStatusOk
    case neg => rw [newCallStatus_of_not_ok h6] at h; cases h
    rw [newCallStatus_of_ok h6] at h
    simp only [Except.ok.injEq] at h
    subst h
    have hbi : b.basisInfoStatus = kHighsStatusOk :=
      (newCallStatus_isNone b.basisInfoStatus "Highs_getIntInfoValue" "GetIntInfo").mp h5.1
    refine ⟨?_, ?_, ?_, ?_⟩
    · simpa using hduals.1
    · simpa using hduals.2
    · simp [hbi, h5.2]
    · simp [hbi, h5.2]
  · rw [if_neg h5] at h
    simp only [Except.ok.injEq] at h
    subst h
    have hbasis : ¬(b.basisInfoStatus = kHighsStatusOk ∧
        b.basisValidity = kHighsBasisValidityValid) := by
      intro hc
      exact h5 ⟨(newCallStatus_isNone b.basisInfoStatus "Highs_getIntInfoValue"
        "GetIntInfo").mpr hc.1, hc.2⟩
    have hbnone : (rawSolveDuals b).ColumnBasis = none ∧ (rawSolveDuals b).RowBasis = none := by
      unfold rawSolveDuals rawSolveBase
      by_cases h7 : b.dualSolutionStatus = kHighsSolutionStatusFeasible <;> simp [h7]
    refine ⟨hduals.1, hduals.2, ?_, ?_⟩
    · simp [hbnone.1, hbasis]
    · simp [hbnone.2, hbasis]

/-- C9 witness: the statement applied to a backend reporting an infeasible
dual solution and an invalid basis — the solve still succeeds and both
vector families stay absent. -/
theorem c9_dual_basis_gating_witness :
    (({ Status := .Optimal } : RawSolutionGo).ColumnDual.isSome = true ↔
      ({ dualSolutionStatus := kHighsSolutionStatusInfeasible } : RawBackend).dualSolutionStatus =
        kHighsSolutionStatusFeasible) ∧
    (({ Status := .Optimal } : RawSolutionGo).RowDual.isSome = true ↔
      ({ dualSolutionStatus := kHighsSolutionStatusInfeasible } : RawBackend).dualSolutionStatus =
        kHighsSolutionStatusFeasible) ∧
    (({ Status := .Optimal } : RawSolutionGo).ColumnBasis.isSome = true ↔
      ({ dualSolutionStatus := kHighsSolutionStatusInfeasible } : RawBackend).basisInfoStatus =
        kHighsStatusOk ∧
      ({ dualSolutionStatus := kHighsSolutionStatusInfeasible } : RawBackend).basisValidity =
        kHighsBasisValidityValid) ∧
    (({ Status := .Optimal } : RawSolutionGo).RowBasis.isSome = true ↔
      ({ dualSolutionStatus := kHighsSolutionStatusInfeasible } : RawBackend).basisInfoStatus =
        kHighsStatusOk ∧
      ({ dualSolutionStatus := kHighsSolutionStatusInfeasible } : RawBackend).basisValidity =
        kHighsBasisValidityValid) :=
  c9_dual_basis_gating { dualSolutionStatus := kHighsSolutionStatusInfeasible }
    { Status := .Optimal } (by decide)

end LanlHighs
